import Mathlib

/-!
Verification development for the page cache and page-addressing core
(`core/src/page_id.rs`, `nomt/src/page_cache.rs`).

The Rust code is shallowly embedded: 256-bit `ruint` integers become `Nat`
with explicit reduction modulo `2 ^ 256` where the source can wrap, byte
buffers become functions from positions to byte values, and fallible
operations return `Option` or `Except`.
-/

namespace Nomt

/-- Big-endian interpretation of a byte list as a natural number, as
`Uint::<256, 4>::from_be_bytes` does for a 32-byte array. -/
def fromBeBytes (bs : List Nat) : Nat :=
  bs.foldl (fun acc b => acc * 256 + b) 0

/-- Big-endian byte list (most significant byte first) of width `k`, as
`Uint::to_be_bytes::<32>` with `k = 32`. -/
def toBeBytes : Nat → Nat → List Nat
  | 0, _ => []
  | k + 1, n => toBeBytes k (n / 256) ++ [n % 256]

/-- Reduction modulo `2 ^ 256`: the implicit wrap-around of every
`Uint<256, 4>` operation in `ruint`. -/
def wrap (n : Nat) : Nat := n % 2 ^ 256

/-- Wrapping subtraction of one on a 256-bit integer (`uint -= 1`). -/
def sub1 (u : Nat) : Nat := wrap (u + (2 ^ 256 - 1))

/-- Modelled from the spec: `crate::page::DEPTH`.  The file `page.rs` is not
part of the sources; the spec fixes the per-page depth at 6 (branching
factor `2 ^ 6`, `NODES_PER_PAGE = 2 ^ (DEPTH + 1) - 2 = 126`). -/
def DEPTH : Nat := 6

/-- `MAX_CHILD_INDEX: u8 = (1 << DEPTH) - 1`. -/
def MAX_CHILD_INDEX : Nat := (1 <<< DEPTH) - 1

/-- A `PageId` is carried by its limb list (`ArrayVec<u8, 42>`), most
significant limb first. -/
abbrev PageId := List Nat

/-- `ROOT_PAGE_ID`: the empty limb list. -/
def ROOT_PAGE_ID : PageId := []

/-- `ChildPageIndex::new`: accepts exactly the indices up to
`MAX_CHILD_INDEX`. -/
def ChildPageIndex.new (index : Nat) : Option Nat :=
  if MAX_CHILD_INDEX < index then none else some index

/-- `HIGHEST_ENCODED_42`, built from the same byte literal as the source. -/
def HIGHEST_ENCODED_42 : Nat :=
  fromBeBytes [16, 65, 4, 16, 65, 4, 16, 65, 4, 16, 65, 4, 16, 65, 4, 16, 65,
    4, 16, 65, 4, 16, 65, 4, 16, 65, 4, 16, 65, 4, 16, 64]

/-- Fuel-bounded binary length: `bitLen 256 u` equals
`256 - u.leading_zeros()` for a 256-bit `u`. -/
def bitLen : Nat → Nat → Nat
  | 0, _ => 0
  | fuel + 1, u => if u = 0 then 0 else bitLen fuel (u / 2) + 1

/-- The loop of `PageId::decode`: `k` iterations of `uint -= 1;
limbs.push(uint & 0b111111); uint >>= DEPTH`. -/
def decodeLoop : Nat → Nat → List Nat → Nat × List Nat
  | 0, u, limbs => (u, limbs)
  | k + 1, u, limbs => decodeLoop k (sub1 u / 2 ^ DEPTH) (limbs ++ [sub1 u % 64])

/-- `PageId::decode` after the `from_be_bytes` conversion. -/
def decodeU (u : Nat) : Option PageId :=
  if HIGHEST_ENCODED_42 < u then none
  else
    let bit_count := bitLen 256 u
    let sextets := (bit_count + 5) / 6
    if bit_count = 0 then some ROOT_PAGE_ID
    else
      let r := decodeLoop (sextets - 1) u []
      let limbs := if r.1 % 256 ≠ 0 then r.2 ++ [sub1 r.1 % 256] else r.2
      some limbs.reverse

/-- `PageId::decode`. -/
def PageId.decode (bytes : List Nat) : Option PageId :=
  decodeU (fromBeBytes bytes)

/-- `PageId::encode` exactly as the source performs it: for each limb,
`uint += limb + 1` and then `uint <<= 6`, both wrapping at 256 bits. -/
def PageId.encode (p : PageId) : List Nat :=
  toBeBytes 32 (p.foldl (fun u l => wrap (wrap (u + (l + 1)) * 2 ^ 6)) 0)

/-- The error cases of `PageId::child_page_id`. -/
inductive ChildPageIdError
  | PageIdOverflow
  deriving DecidableEq

/-- `PageId::child_page_id`: appends the child index unless the id already
has 42 limbs. -/
def PageId.child_page_id (p : PageId) (child_index : Nat) :
    Except ChildPageIdError PageId :=
  if 42 ≤ p.length then .error .PageIdOverflow
  else .ok (p ++ [child_index])

/-- `PageId::parent_page_id`: the root maps to itself, otherwise the last
limb is popped. -/
def PageId.parent_page_id (p : PageId) : PageId :=
  if p = ROOT_PAGE_ID then ROOT_PAGE_ID else p.dropLast

/-- `PageIdsIterator`: the remaining 256-bit key and the id to yield next
(`None` once `child_page_id` has overflowed). -/
structure PageIdsIterator where
  key_path : Nat
  page_id : Option PageId

/-- `PageIdsIterator::new`: starts from the root page id. -/
def PageIdsIterator.new (key_path : List Nat) : PageIdsIterator :=
  ⟨fromBeBytes key_path, some ROOT_PAGE_ID⟩

/-- One `next()` call: yields the stored id and advances, consuming the six
most significant key bits (`key_path.byte(31) >> 2`, then `key_path <<= 6`). -/
def PageIdsIterator.next (it : PageIdsIterator) : Option PageId × PageIdsIterator :=
  match it.page_id with
  | none => (none, it)
  | some prev =>
    let child_index := it.key_path / 2 ^ 248 % 256 / 4
    let key := wrap (it.key_path * 2 ^ 6)
    (some prev, ⟨key, (prev.child_page_id child_index).toOption⟩)

/-- The list of the first `n` ids the iterator yields. -/
def PageIdsIterator.take : Nat → PageIdsIterator → List PageId
  | 0, _ => []
  | n + 1, it =>
    match it.next with
    | (none, _) => []
    | (some p, it2) => p :: PageIdsIterator.take n it2

/-- The disambiguated representation described by the module documentation
of `page_id.rs`: starting from zero, for each limb shift left by six bits,
add the limb, then add one.  `decode` inverts exactly this map; it serves
here as the proof-side description of the valid encodings. -/
def dEncode (limbs : List Nat) : Nat :=
  limbs.foldl (fun u l => u * 64 + l + 1) 0

/-- The largest `dEncode` value over limb lists of length at most `k` with
limbs below 64; `maxEnc 42` is `HIGHEST_ENCODED_42`. -/
def maxEnc : Nat → Nat
  | 0 => 0
  | k + 1 => 64 * maxEnc k + 64

/-- Fuel-bounded inverse of `dEncode`, stripping limbs least significant
first. -/
def limbsOfAux : Nat → Nat → List Nat
  | 0, _ => []
  | fuel + 1, u =>
    if u = 0 then [] else limbsOfAux fuel ((u - 1) / 64) ++ [(u - 1) % 64]

/-- The limb list of a 256-bit value that is at most `HIGHEST_ENCODED_42`. -/
def limbsOf42 (u : Nat) : List Nat := limbsOfAux 42 u

/-- The `j`-th six-bit group of a 256-bit key, most significant first. -/
def keySextet (key j : Nat) : Nat := key / 2 ^ (250 - 6 * j) % 64

/-- The page id at depth `j` along a key: its first `j` six-bit groups. -/
def pathAt (key j : Nat) : PageId := (List.range j).map (keySextet key)

/-- The iterator state reached after `j` calls to `next()` on a fresh
iterator over `key`. -/
def stateAt (key j : Nat) : PageIdsIterator :=
  ⟨key * 64 ^ j % 2 ^ 256, if j ≤ 42 then some (pathAt key j) else none⟩

/-- `NODES_PER_PAGE = (1 << DEPTH + 1) - 2 = 126`. -/
def NODES_PER_PAGE : Nat := (1 <<< (DEPTH + 1)) - 2

/-- `LEAF_META_BITFIELD_SLOT = NODES_PER_PAGE`. -/
def LEAF_META_BITFIELD_SLOT : Nat := NODES_PER_PAGE

/-- `LEAF_DATA_BITFIELD_OFF = LEAF_META_BITFIELD_SLOT * 32 = 4032`. -/
def LEAF_DATA_BITFIELD_OFF : Nat := LEAF_META_BITFIELD_SLOT * 32

/-- A page buffer (`Vec<u8>` of length 4096): the byte value at each
position. -/
abbrev Buf := Nat → Nat

/-- The freshly allocated buffer `vec![0; 4096]`. -/
def emptyBuf : Buf := fun _ => 0

/-- `data[start..start + bs.length].copy_from_slice(bs)`. -/
def writeBytes (buf : Buf) (start : Nat) (bs : List Nat) : Buf :=
  fun i =>
    if start ≤ i ∧ i < start + bs.length then bs.getD (i - start) 0 else buf i

/-- The `len` bytes starting at `start`. -/
def readBytes (buf : Buf) (start len : Nat) : List Nat :=
  (List.range len).map (fun j => buf (start + j))

/-- Replace the byte at one position. -/
def updateByte (buf : Buf) (pos val : Nat) : Buf :=
  fun i => if i = pos then val else buf i

/-- Set or clear one bit of a byte value, with bit positions counted from
the least significant bit. -/
def setBit (b pos : Nat) (v : Bool) : Nat :=
  if v then b ||| (1 <<< pos) else b &&& (255 ^^^ (1 <<< pos))

/-- Bit `i` of the leaf-metadata bitfield: `bitvec` `Msb0` order places bit
`i` at bit `7 - i % 8` of byte `i / 8` of the 32-byte field. -/
def getLeafBit (buf : Buf) (i : Nat) : Bool :=
  Nat.testBit (buf (LEAF_DATA_BITFIELD_OFF + i / 8)) (7 - i % 8)

/-- Write bit `i` of the leaf-metadata bitfield
(`leaf_data_bits(data).set(i, v)`). -/
def setLeafBit (buf : Buf) (i : Nat) (v : Bool) : Buf :=
  updateByte buf (LEAF_DATA_BITFIELD_OFF + i / 8)
    (setBit (buf (LEAF_DATA_BITFIELD_OFF + i / 8)) (7 - i % 8) v)

/-- In-memory page data: the `RwPassCell<Option<Vec<u8>>>` payload, `None`
until the first write. -/
abbrev PageData := Option Buf

/-- Modelled from the spec: `trie::Node` is a 32-byte value and
`Node::default()` is all zeros (`trie.rs` is not among the sources). -/
def nodeDefault : List Nat := List.replicate 32 0

/-- `PageData::node`: the 32 bytes of slot `index`, all-zero when the
buffer is absent. -/
def PageData.node (d : PageData) (index : Nat) : List Nat :=
  match d with
  | some data => readBytes data (index * 32) 32
  | none => nodeDefault

/-- `PageData::set_node`: lazily allocates, writes the 32 node bytes at
slot `index` and clears leaf bit `index`. -/
def PageData.set_node (d : PageData) (index : Nat) (n : List Nat) : PageData :=
  let data := d.getD emptyBuf
  let data := writeBytes data (index * 32) n
  some (setLeafBit data index false)

/-- Modelled from the spec: `trie::LeafData` is a pair of 32-byte values,
a key-hash prefix and a value hash (`trie.rs` is not among the sources). -/
structure LeafData where
  keyHash : List Nat
  valueHash : List Nat

/-- Modelled from the spec: the 64-byte record `LeafData::encode_into`
writes into the two adjacent slots. -/
def LeafData.encode (ld : LeafData) : List Nat := ld.keyHash ++ ld.valueHash

/-- `PageData::set_leaf_data`: sets leaf bits `left_index` and
`left_index + 1`, then writes the 64-byte record over the slot pair. -/
def PageData.set_leaf_data (d : PageData) (left_index : Nat) (ld : LeafData) :
    PageData :=
  let data := d.getD emptyBuf
  let data := setLeafBit (setLeafBit data left_index true) (left_index + 1) true
  some (writeBytes data (left_index * 32) ld.encode)

/-- `PageData::clear_leaf_data`: replaces both leaf bits by zero and zeroes
each of the two slots whose bit was previously one. -/
def PageData.clear_leaf_data (d : PageData) (left_index : Nat) : PageData :=
  let data0 := d.getD emptyBuf
  let overwrite_l := getLeafBit data0 left_index
  let data1 := setLeafBit data0 left_index false
  let overwrite_r := getLeafBit data1 (left_index + 1)
  let data2 := setLeafBit data1 (left_index + 1) false
  let data3 :=
    if overwrite_l then writeBytes data2 (left_index * 32) (List.replicate 32 0)
    else data2
  let data4 :=
    if overwrite_r then
      writeBytes data3 (left_index * 32 + 32) (List.replicate 32 0)
    else data3
  some data4

/-- The leaf-metadata bit as observed through a `PageData`; an absent
buffer reads as all zeros. -/
def PageData.leafBit (d : PageData) (i : Nat) : Bool :=
  match d with
  | some data => getLeafBit data i
  | none => false

/-- `page_is_empty`: the first two slots (64 bytes) are zero. -/
def page_is_empty (page : Buf) : Bool :=
  readBytes page 0 64 == List.replicate 64 0

/-- A cache entry during commit (`PageState`). -/
inductive PageState
  | Cached (data : PageData)
  | Inflight

/-- The ascending slot indices of a `PageDiff`
(`updated_slots.iter_ones()` over the 128-bit `BitArray`). -/
def iterOnes (diff : Nat) : List Nat :=
  (List.range 128).filter (fun i => Nat.testBit diff i)

/-- `updated_slots.count_ones()`. -/
def countOnes (diff : Nat) : Nat := (iterOnes diff).length

/-- The instructions a commit sends to the store transaction. -/
inductive TxOp
  | delete_page (id : PageId)
  | write_page (id : PageId) (data : List Nat)
  | write_page_nodes (id : PageId) (tagged : List Nat)
  deriving DecidableEq

/-- The packed delta for a partially updated page: for each changed slot in
ascending order, one index byte followed by the 32 slot bytes. -/
def taggedNodes (page : Buf) (diff : Nat) : List Nat :=
  (iterOnes diff).foldr
    (fun s acc => s :: (readBytes page (s * 32) 32 ++ acc)) []

/-- `FULL_PAGE_THRESHOLD`. -/
def FULL_PAGE_THRESHOLD : Nat := 32

/-- The instructions `PageCache::commit` sends for one `(PageId, PageDiff)`
pair: nothing when the id is not cached, `delete_page` when the buffer is
absent or empty, a full `write_page` at or above the threshold, otherwise
the packed `write_page_nodes` delta.  `none` models the panic on an
inflight entry. -/
def commitOne (cache : PageId → Option PageState) (pid : PageId)
    (diff : Nat) : Option (List TxOp) :=
  match cache pid with
  | none => some []
  | some PageState.Inflight => none
  | some (PageState.Cached d) =>
    if (d.map page_is_empty).getD true then some [TxOp.delete_page pid]
    else
      match d with
      | none => some []
      | some page =>
        if FULL_PAGE_THRESHOLD ≤ countOnes diff then
          some [TxOp.write_page pid (readBytes page 0 4096)]
        else some [TxOp.write_page_nodes pid (taggedNodes page diff)]

/-- `PageCache::commit`: the instructions sent for a list of diffs, in
order. -/
def commit (cache : PageId → Option PageState) :
    List (PageId × Nat) → Option (List TxOp)
  | [] => some []
  | (pid, diff) :: rest =>
    match commitOne cache pid diff, commit cache rest with
    | some ops, some more => some (ops ++ more)
    | _, _ => none

/-- A one-entry cache for evaluating `commit` on a concrete input: the root
id maps to a cached page whose buffer was never written. -/
def cacheSingle : PageId → Option PageState :=
  fun pid =>
    if pid = ([] : PageId) then some (PageState.Cached (some emptyBuf))
    else none

/-- `InflightFetch::complete_and_notify` acting on the protected
`Option<Page>` cell: a no-op once completed, otherwise stores the page and
wakes all waiters. -/
def InflightFetch.complete_and_notify {α : Type} (st : Option α) (p : α) :
    Option α :=
  match st with
  | some q => some q
  | none => some p

/-- The value `InflightFetch::wait` hands a waiter once the cell is
completed: the stored page. -/
def InflightFetch.wait {α : Type} (st : Option α) : Option α := st

/-- C1: the claim `encode (decode b) = b` fails on the code.  Decoding the
32-byte value whose only nonzero byte is byte 31 = 7 yields the PageId
`[6]`, as the claim states, but re-encoding `[6]` produces the bytes of 448
(bytes 30 and 31 equal to 1 and 192), because `encode` shifts left by six
after adding the final limb as well.  This theorem evaluates the code at
that failing input. -/
theorem c1_encode_decode_failing_eval :
    PageId.decode (List.replicate 31 0 ++ [7]) = some [6] ∧
    PageId.encode [6] = toBeBytes 32 448 ∧
    PageId.encode [6] ≠ List.replicate 31 0 ++ [7] :=
  ⟨by decide, by decide, by decide⟩

/-- C2: the claim `decode (encode p) = p` fails on the code.  For the PageId
`[6]`, `encode` produces the bytes of 448, which decode back to `[5, 63]`,
not `[6]`.  This theorem evaluates the code at that failing input. -/
theorem c2_decode_encode_failing_eval :
    PageId.decode (PageId.encode [6]) = some [5, 63] ∧
    ([5, 63] : PageId) ≠ [6] :=
  ⟨by decide, by decide⟩

/-- C8: for every PageId of length below 42 and child index at most 63,
`child_page_id` appends the index, `parent_page_id` undoes it, and the
parent of the root is the root. -/
theorem c8_parent_child (p : PageId) (i : Nat) (hp : p.length < 42)
    (hi : i ≤ 63) :
    ChildPageIndex.new i = some i ∧
    PageId.child_page_id p i = Except.ok (p ++ [i]) ∧
    PageId.parent_page_id (p ++ [i]) = p ∧
    PageId.parent_page_id ROOT_PAGE_ID = ROOT_PAGE_ID := by
  have hmax : MAX_CHILD_INDEX = 63 := by decide
  refine ⟨?_, ?_, ?_, rfl⟩
  · rw [ChildPageIndex.new, hmax, if_neg (by omega)]
  · rw [PageId.child_page_id, if_neg (by omega)]
  · have hne : p ++ [i] ≠ ROOT_PAGE_ID := by simp [ROOT_PAGE_ID]
    rw [PageId.parent_page_id, if_neg hne, List.dropLast_concat]

/-- Witness for C8 at the root and child index 6. -/
theorem c8_parent_child_witness :
    ([] : PageId).length < 42 ∧ (6 : Nat) ≤ 63 ∧
    (ChildPageIndex.new 6 = some 6 ∧
     PageId.child_page_id [] 6 = Except.ok ([] ++ [6]) ∧
     PageId.parent_page_id ([] ++ [6]) = [] ∧
     PageId.parent_page_id ROOT_PAGE_ID = ROOT_PAGE_ID) :=
  ⟨by decide, by decide, c8_parent_child [] 6 (by decide) (by decide)⟩

theorem dEncode_concat (L : List Nat) (l : Nat) :
    dEncode (L ++ [l]) = dEncode L * 64 + l + 1 := by
  simp [dEncode, List.foldl_append]

theorem maxEnc_mul (k : Nat) : 63 * maxEnc k + 64 = 64 ^ (k + 1) := by
  induction k with
  | zero => rfl
  | succ k ih =>
    have h : 63 * maxEnc (k + 1) + 64 = 64 * (63 * maxEnc k + 64) := by
      simp only [maxEnc]; ring
    rw [h, ih, pow_succ]; ring

theorem dEncode_le_maxEnc (L : List Nat) :
    ∀ k : Nat, (∀ l ∈ L, l < 64) → L.length ≤ k → dEncode L ≤ maxEnc k := by
  induction L using List.reverseRecOn with
  | nil => intro k _ _; simp [dEncode]
  | append_singleton M l ih =>
    intro k hl hk
    rcases k with _ | k0
    · simp at hk
    · rw [dEncode_concat]
      have hM : dEncode M ≤ maxEnc k0 :=
        ih k0 (fun x hx => hl x (by simp [hx])) (by simp at hk; omega)
      have hl64 : l < 64 := hl l (by simp)
      simp only [maxEnc]
      omega

theorem le_dEncode (L : List Nat) (h : L ≠ []) :
    64 ^ (L.length - 1) ≤ dEncode L := by
  induction L using List.reverseRecOn with
  | nil => exact absurd rfl h
  | append_singleton M l ih =>
    rw [dEncode_concat]
    have hlen : (M ++ [l]).length - 1 = M.length := by simp
    rw [hlen]
    rcases eq_or_ne M [] with hM | hM
    · subst hM; simp
    · have hind := ih hM
      have hpos : M.length - 1 + 1 = M.length :=
        Nat.succ_pred_eq_of_pos (List.length_pos.mpr hM)
      calc 64 ^ M.length = 64 ^ (M.length - 1 + 1) := by rw [hpos]
        _ = 64 ^ (M.length - 1) * 64 := pow_succ 64 _
        _ ≤ dEncode M * 64 := Nat.mul_le_mul_right 64 hind
        _ ≤ dEncode M * 64 + l + 1 := by omega

theorem dEncode_lt (L : List Nat) (h : ∀ l ∈ L, l < 64) :
    dEncode L < 2 * 64 ^ L.length := by
  have h1 := dEncode_le_maxEnc L L.length h le_rfl
  have h2 := maxEnc_mul L.length
  have hpos : (0 : Nat) < 64 ^ L.length := pow_pos (by norm_num) _
  have h3 : 63 * dEncode L < 63 * (2 * 64 ^ L.length) := by
    calc 63 * dEncode L ≤ 63 * maxEnc L.length := Nat.mul_le_mul_left 63 h1
      _ < 63 * maxEnc L.length + 64 := by omega
      _ = 64 ^ (L.length + 1) := h2
      _ = 64 * 64 ^ L.length := by rw [pow_succ]; ring
      _ ≤ 63 * (2 * 64 ^ L.length) := by omega
  exact Nat.lt_of_mul_lt_mul_left h3

theorem bitLen_spec : ∀ fuel u : Nat, u < 2 ^ fuel →
    u < 2 ^ bitLen fuel u ∧ (u ≠ 0 → 2 ^ (bitLen fuel u - 1) ≤ u) := by
  intro fuel
  induction fuel with
  | zero =>
    intro u hu
    have hz : u = 0 := by simpa using hu
    subst hz
    simp [bitLen]
  | succ f ih =>
    intro u hu
    by_cases h0 : u = 0
    · subst h0; simp [bitLen]
    · rw [bitLen, if_neg h0]
      have hu2 : u / 2 < 2 ^ f := by
        have h2 : 2 ^ (f + 1) = 2 * 2 ^ f := by rw [pow_succ]; ring
        omega
      obtain ⟨ha, hb⟩ := ih (u / 2) hu2
      constructor
      · have h2 : 2 ^ (bitLen f (u / 2) + 1) = 2 * 2 ^ bitLen f (u / 2) := by
          rw [pow_succ]; ring
        omega
      · intro _
        by_cases hq : u / 2 = 0
        · have hz : bitLen f (u / 2) = 0 := by
            rw [hq]; cases f <;> simp [bitLen]
          rw [hz]
          simpa using Nat.one_le_iff_ne_zero.mpr h0
        · have hb2 := hb hq
          have hb1 : 1 ≤ bitLen f (u / 2) := by
            rcases Nat.eq_zero_or_pos (bitLen f (u / 2)) with hz | hz
            · rw [hz] at ha; simp at ha; omega
            · exact hz
          have hpow : 2 ^ (bitLen f (u / 2) + 1 - 1) =
              2 * 2 ^ (bitLen f (u / 2) - 1) := by
            rw [← pow_succ']
            congr 1
            omega
          rw [hpow]
          omega

theorem sub1_eq (u : Nat) (h1 : 1 ≤ u) (h2 : u < 2 ^ 256) : sub1 u = u - 1 := by
  unfold sub1 wrap
  have hsplit : u + (2 ^ 256 - 1) = (u - 1) + 2 ^ 256 := by omega
  rw [hsplit, Nat.add_mod_right]
  exact Nat.mod_eq_of_lt (by omega)

theorem decodeLoop_dEncode (L : List Nat) :
    ∀ (j : Nat) (acc : List Nat), j ≤ L.length → (∀ l ∈ L, l < 64) →
      dEncode L < 2 ^ 256 →
      decodeLoop j (dEncode L) acc =
        (dEncode (L.take (L.length - j)),
          acc ++ (L.drop (L.length - j)).reverse) := by
  induction L using List.reverseRecOn with
  | nil =>
    intro j acc hj _ _
    have hz : j = 0 := by simpa using hj
    subst hz
    simp [decodeLoop]
  | append_singleton M l ih =>
    intro j acc hj hl hlt
    rcases j with _ | j0
    · rw [decodeLoop, Nat.sub_zero, List.take_length, List.drop_length]
      simp
    · have hlen : (M ++ [l]).length = M.length + 1 := by simp
      have hj0 : j0 ≤ M.length := by rw [hlen] at hj; omega
      have hE : dEncode (M ++ [l]) = dEncode M * 64 + l + 1 := dEncode_concat M l
      have hl64 : l < 64 := hl l (by simp)
      have h1 : 1 ≤ dEncode (M ++ [l]) := by omega
      have hs : sub1 (dEncode (M ++ [l])) = dEncode M * 64 + l := by
        rw [sub1_eq _ h1 hlt, hE]
        omega
      have hdiv : (dEncode M * 64 + l) / 2 ^ DEPTH = dEncode M := by
        simp only [DEPTH]
        norm_num
        omega
      have hmod : (dEncode M * 64 + l) % 64 = l := by omega
      have hM64 : ∀ x ∈ M, x < 64 := fun x hx => hl x (by simp [hx])
      have hMlt : dEncode M < 2 ^ 256 := by omega
      rw [decodeLoop, hs, hdiv, hmod, ih j0 (acc ++ [l]) hj0 hM64 hMlt]
      have harith : (M ++ [l]).length - (j0 + 1) = M.length - j0 := by
        rw [hlen]; omega
      have htake : (M ++ [l]).take ((M ++ [l]).length - (j0 + 1)) =
          M.take (M.length - j0) := by
        rw [harith, List.take_append_of_le_length (by omega)]
      have hdrop : (M ++ [l]).drop ((M ++ [l]).length - (j0 + 1)) =
          M.drop (M.length - j0) ++ [l] := by
        rw [harith, List.drop_append_of_le_length (by omega)]
      rw [htake, hdrop]
      simp

theorem decodeU_dEncode (L : List Nat) (h64 : ∀ l ∈ L, l < 64)
    (hlen : L.length ≤ 42) : decodeU (dEncode L) = some L := by
  have hmaxeq : maxEnc 42 = HIGHEST_ENCODED_42 := by decide
  have hmax : dEncode L ≤ HIGHEST_ENCODED_42 := by
    rw [← hmaxeq]; exact dEncode_le_maxEnc L 42 h64 hlen
  have h256 : HIGHEST_ENCODED_42 < 2 ^ 256 := by decide
  have hlt : dEncode L < 2 ^ 256 := by omega
  rcases eq_or_ne L [] with hL | hL
  · subst hL
    have hz : dEncode ([] : List Nat) = 0 := rfl
    rw [hz]
    decide
  · obtain ⟨l0, L0, rfl⟩ : ∃ a t, L = a :: t := by
      rcases L with _ | ⟨a, t⟩
      · exact absurd rfl hL
      · exact ⟨a, t, rfl⟩
    set m := (l0 :: L0).length with hm
    have hm1 : 1 ≤ m := by simp [hm]
    have hlow : 64 ^ (m - 1) ≤ dEncode (l0 :: L0) := le_dEncode _ hL
    have hhigh : dEncode (l0 :: L0) < 2 * 64 ^ m := dEncode_lt _ h64
    have hne : dEncode (l0 :: L0) ≠ 0 := by
      have : (0 : Nat) < 64 ^ (m - 1) := pow_pos (by norm_num) _
      omega
    obtain ⟨hbu, hbl⟩ := bitLen_spec 256 (dEncode (l0 :: L0)) hlt
    have hbl2 := hbl hne
    set bc := bitLen 256 (dEncode (l0 :: L0)) with hbc
    have h64pow : ∀ t : Nat, (64 : Nat) ^ t = 2 ^ (6 * t) := by
      intro t
      rw [show (64 : Nat) = 2 ^ 6 by norm_num, ← pow_mul]
    have hbc1 : 6 * (m - 1) < bc := by
      have hchain : (2 : Nat) ^ (6 * (m - 1)) < 2 ^ bc := by
        calc (2 : Nat) ^ (6 * (m - 1)) = 64 ^ (m - 1) := (h64pow (m - 1)).symm
          _ ≤ dEncode (l0 :: L0) := hlow
          _ < 2 ^ bc := hbu
      exact (pow_lt_pow_iff_right₀ (by norm_num)).mp hchain
    have hbc2 : bc ≤ 6 * m + 1 := by
      have hchain : (2 : Nat) ^ (bc - 1) < 2 ^ (6 * m + 1) := by
        calc (2 : Nat) ^ (bc - 1) ≤ dEncode (l0 :: L0) := hbl2
          _ < 2 * 64 ^ m := hhigh
          _ = 2 ^ (6 * m + 1) := by rw [h64pow m, pow_succ]; ring
      have := (pow_lt_pow_iff_right₀ (a := (2 : Nat)) (by norm_num)).mp hchain
      omega
    have hbcne : bc ≠ 0 := by
      intro hz
      rw [hz, pow_zero] at hbu
      omega
    have hguard : ¬ HIGHEST_ENCODED_42 < dEncode (l0 :: L0) := by omega
    rw [decodeU]
    rw [if_neg hguard]
    simp only [← hbc, if_neg hbcne]
    by_cases hsex : bc ≤ 6 * m
    · -- sextets = m, loop runs m - 1 times, final push of the head limb
      have hsexval : (bc + 5) / 6 - 1 = m - 1 := by omega
      rw [hsexval, decodeLoop_dEncode (l0 :: L0) (m - 1) [] (by omega) h64 hlt]
      have hsub : m - (m - 1) = 1 := by omega
      rw [hsub]
      have htake : (l0 :: L0).take 1 = [l0] := rfl
      have hdrop : (l0 :: L0).drop 1 = L0 := rfl
      rw [htake, hdrop]
      have hEhead : dEncode [l0] = l0 + 1 := by simp [dEncode]
      have hl0 : l0 < 64 := h64 l0 (by simp)
      have hmod : (dEncode [l0]) % 256 = l0 + 1 := by rw [hEhead]; omega
      have hsub1 : sub1 (dEncode [l0]) % 256 = l0 := by
        rw [hEhead, sub1_eq (l0 + 1) (by omega) (by omega)]
        omega
      simp only [hmod, hsub1]
      rw [if_pos (by omega)]
      simp
    · -- sextets = m + 1, loop runs m times and the final sextet is zero
      have hsexval : (bc + 5) / 6 - 1 = m := by omega
      rw [hsexval, decodeLoop_dEncode (l0 :: L0) m [] (by omega) h64 hlt]
      have hsub : m - m = 0 := by omega
      rw [hsub]
      have hz : dEncode ((l0 :: L0).take 0) = 0 := rfl
      simp only [List.take_zero, List.drop_zero]
      have hEz : dEncode ([] : List Nat) = 0 := rfl
      rw [hEz]
      simp

theorem limbsOfAux_length : ∀ fuel u : Nat, (limbsOfAux fuel u).length ≤ fuel := by
  intro fuel
  induction fuel with
  | zero => intro u; simp [limbsOfAux]
  | succ f ih =>
    intro u
    rw [limbsOfAux]
    split
    · simp
    · have := ih ((u - 1) / 64)
      simp only [List.length_append, List.length_cons, List.length_nil]
      omega

theorem limbsOfAux_spec : ∀ fuel u : Nat, u ≤ maxEnc fuel →
    dEncode (limbsOfAux fuel u) = u ∧ ∀ l ∈ limbsOfAux fuel u, l < 64 := by
  intro fuel
  induction fuel with
  | zero =>
    intro u hu
    have hz : u = 0 := by simpa [maxEnc] using hu
    subst hz
    exact ⟨rfl, by simp [limbsOfAux]⟩
  | succ f ih =>
    intro u hu
    rw [limbsOfAux]
    by_cases h0 : u = 0
    · subst h0
      simp [dEncode]
    · rw [if_neg h0]
      have hu2 : (u - 1) / 64 ≤ maxEnc f := by
        simp only [maxEnc] at hu
        omega
      obtain ⟨he, hb⟩ := ih ((u - 1) / 64) hu2
      refine ⟨?_, ?_⟩
      · rw [dEncode_concat, he]
        omega
      · intro l hl
        rcases List.mem_append.mp hl with hl | hl
        · exact hb l hl
        · have : l = (u - 1) % 64 := by simpa using hl
          omega

theorem decodeU_eq_limbsOf42 (u : Nat) (h : u ≤ HIGHEST_ENCODED_42) :
    decodeU u = some (limbsOf42 u) := by
  have hmaxeq : maxEnc 42 = HIGHEST_ENCODED_42 := by decide
  obtain ⟨he, hb⟩ := limbsOfAux_spec 42 u (by omega)
  have hlen := limbsOfAux_length 42 u
  calc decodeU u = decodeU (dEncode (limbsOf42 u)) := by rw [limbsOf42, he]
    _ = some (limbsOf42 u) := decodeU_dEncode _ hb hlen

theorem fromBeBytes_lt_aux :
    ∀ (bs : List Nat) (acc : Nat), (∀ b ∈ bs, b < 256) →
      bs.foldl (fun a x => a * 256 + x) acc < (acc + 1) * 256 ^ bs.length := by
  intro bs
  induction bs with
  | nil => intro acc _; simp
  | cons b t ih =>
    intro acc hb
    have hb256 : b < 256 := hb b (by simp)
    have ht : ∀ x ∈ t, x < 256 := fun x hx => hb x (by simp [hx])
    calc (b :: t).foldl (fun a x => a * 256 + x) acc
        = t.foldl (fun a x => a * 256 + x) (acc * 256 + b) := rfl
      _ < (acc * 256 + b + 1) * 256 ^ t.length := ih (acc * 256 + b) ht
      _ ≤ ((acc + 1) * 256) * 256 ^ t.length :=
          Nat.mul_le_mul_right _ (by omega)
      _ = (acc + 1) * 256 ^ (t.length + 1) := by rw [pow_succ]; ring
      _ = (acc + 1) * 256 ^ (b :: t).length := by simp

theorem fromBeBytes_lt (bs : List Nat) (h : ∀ b ∈ bs, b < 256) :
    fromBeBytes bs < 256 ^ bs.length := by
  have := fromBeBytes_lt_aux bs 0 h
  simpa [fromBeBytes] using this

theorem key_sextet_extract (key j : Nat) (hj : j < 42) :
    key * 64 ^ j % 2 ^ 256 / 2 ^ 248 % 256 / 4 = keySextet key j := by
  set x := key * 64 ^ j % 2 ^ 256 with hx
  have step1 : x / 2 ^ 248 % 256 / 4 = x / 2 ^ 248 / 4 % 64 := by omega
  have step2 : x / 2 ^ 248 / 4 = x / 2 ^ 250 := by
    rw [Nat.div_div_eq_div_mul]
    congr 1
  have step3 : x / 2 ^ 250 % 64 = key * 64 ^ j / 2 ^ 250 % 64 := by
    have h256 : (2 : Nat) ^ 256 = 2 ^ 250 * 64 := by
      rw [show (64 : Nat) = 2 ^ 6 by norm_num, ← pow_add]
    rw [hx, h256, Nat.mod_mul_right_div_self]
    omega
  have step4 : key * 64 ^ j / 2 ^ 250 = key / 2 ^ (250 - 6 * j) := by
    have h64 : (64 : Nat) ^ j = 2 ^ (6 * j) := by
      rw [show (64 : Nat) = 2 ^ 6 by norm_num, ← pow_mul]
    have hsplit : (2 : Nat) ^ 250 = 2 ^ (250 - 6 * j) * 2 ^ (6 * j) := by
      rw [← pow_add]
      congr 1
      omega
    rw [h64, hsplit]
    exact Nat.mul_div_mul_right key (2 ^ (250 - 6 * j)) (pow_pos (by norm_num) _)
  rw [step1, step2, step3, step4, keySextet]

theorem next_stateAt (key j : Nat) (hj : j ≤ 42) :
    PageIdsIterator.next (stateAt key j) =
      (some (pathAt key j), stateAt key (j + 1)) := by
  have hst : stateAt key j =
      ⟨key * 64 ^ j % 2 ^ 256, some (pathAt key j)⟩ := by
    rw [stateAt, if_pos hj]
  have hkey : wrap (key * 64 ^ j % 2 ^ 256 * 2 ^ 6) =
      key * 64 ^ (j + 1) % 2 ^ 256 := by
    have hmul : key * 64 ^ j * 2 ^ 6 = key * 64 ^ (j + 1) := by
      rw [show (2 : Nat) ^ 6 = 64 by norm_num, pow_succ]
      ring
    rw [wrap, Nat.mod_mul_mod, hmul]
  have hplen : (pathAt key j).length = j := by simp [pathAt]
  rw [hst]
  simp only [PageIdsIterator.next]
  rcases Nat.lt_or_ge j 42 with hj42 | hj42
  · have hpath : pathAt key (j + 1) = pathAt key j ++ [keySextet key j] := by
      simp [pathAt, List.range_succ]
    have hchild : PageId.child_page_id (pathAt key j)
        (key * 64 ^ j % 2 ^ 256 / 2 ^ 248 % 256 / 4) =
        Except.ok (pathAt key (j + 1)) := by
      rw [key_sextet_extract key j hj42, PageId.child_page_id,
        if_neg (by rw [hplen]; omega), hpath]
    rw [hchild, hkey, stateAt, if_pos (by omega)]
    rfl
  · have hj' : j = 42 := by omega
    subst hj'
    have hchild : PageId.child_page_id (pathAt key 42)
        (key * 64 ^ 42 % 2 ^ 256 / 2 ^ 248 % 256 / 4) =
        Except.error ChildPageIdError.PageIdOverflow := by
      rw [PageId.child_page_id, if_pos (by rw [hplen])]
    rw [hchild, hkey, stateAt, if_neg (by omega)]
    rfl

theorem take_of_page_id_none (n : Nat) (it : PageIdsIterator)
    (h : it.page_id = none) : PageIdsIterator.take n it = [] := by
  cases n with
  | zero => rfl
  | succ n =>
    have hnext : PageIdsIterator.next it = (none, it) := by
      obtain ⟨k, pid⟩ := it
      simp only at h
      subst h
      rfl
    simp only [PageIdsIterator.take]
    rw [hnext]

theorem take_succ_of_next (n : Nat) (it it2 : PageIdsIterator) (p : PageId)
    (h : PageIdsIterator.next it = (some p, it2)) :
    PageIdsIterator.take (n + 1) it = p :: PageIdsIterator.take n it2 := by
  simp only [PageIdsIterator.take]
  rw [h]

theorem take_stateAt (key : Nat) :
    ∀ n j : Nat, j ≤ 42 →
      PageIdsIterator.take n (stateAt key j) =
        (List.range' j (min n (43 - j))).map (pathAt key) := by
  intro n
  induction n with
  | zero => intro j hj; simp [PageIdsIterator.take]
  | succ n ih =>
    intro j hj
    have hnext := next_stateAt key j hj
    rw [take_succ_of_next n _ _ _ hnext]
    by_cases hj42 : j = 42
    · subst hj42
      have hnone : (stateAt key 43).page_id = none := by
        simp [stateAt]
      rw [take_of_page_id_none n _ hnone]
      have hmin : min (n + 1) (43 - 42) = 1 := by omega
      rw [hmin]
      rfl
    · have hj1 : j + 1 ≤ 42 := by omega
      rw [ih (j + 1) hj1]
      have hmin : min (n + 1) (43 - j) = min n (43 - (j + 1)) + 1 := by
        omega
      rw [hmin, List.range'_succ]
      rfl

/-- C9: `PageId::decode` fails exactly on byte values whose 256-bit integer
exceeds `HIGHEST_ENCODED_42`; on every value at or below the bound it
succeeds with a PageId of at most 42 limbs, and in particular the bytes
with byte 0 equal to 128 and the rest zero are rejected. -/
theorem c9_decode_validity (bytes : List Nat) :
    PageId.decode bytes =
      (if HIGHEST_ENCODED_42 < fromBeBytes bytes then none
       else some (limbsOf42 (fromBeBytes bytes))) ∧
    (limbsOf42 (fromBeBytes bytes)).length ≤ 42 ∧
    PageId.decode (128 :: List.replicate 31 0) = none := by
  refine ⟨?_, limbsOfAux_length 42 _, by decide⟩
  rw [PageId.decode]
  by_cases h : HIGHEST_ENCODED_42 < fromBeBytes bytes
  · rw [if_pos h, decodeU, if_pos h]
  · rw [if_neg h]
    exact decodeU_eq_limbsOf42 _ (by omega)

/-- C7: over any 32-byte key path, the iterator yields the root page id
first and then one page per depth, the id at depth `j` being the first `j`
six-bit groups of the key (most significant first), so each id extends its
predecessor by the next six key bits; it stops after depth 42, yielding at
most 43 values. -/
theorem c7_page_ids_iterator (key_path : List Nat) (n j : Nat)
    (hlen : key_path.length = 32) (hb : ∀ b ∈ key_path, b < 256) :
    PageIdsIterator.take n (PageIdsIterator.new key_path) =
      (List.range (min n 43)).map (pathAt (fromBeBytes key_path)) ∧
    pathAt (fromBeBytes key_path) 0 = ROOT_PAGE_ID ∧
    pathAt (fromBeBytes key_path) (j + 1) =
      pathAt (fromBeBytes key_path) j ++
        [keySextet (fromBeBytes key_path) j] ∧
    (pathAt (fromBeBytes key_path) j).length = j := by
  have hkey : fromBeBytes key_path < 2 ^ 256 := by
    have hlt := fromBeBytes_lt key_path hb
    rw [hlen] at hlt
    calc fromBeBytes key_path < 256 ^ 32 := hlt
      _ = 2 ^ 256 := by norm_num
  refine ⟨?_, by simp [pathAt, ROOT_PAGE_ID], ?_, by simp [pathAt]⟩
  · have hnew : PageIdsIterator.new key_path = stateAt (fromBeBytes key_path) 0 := by
      unfold PageIdsIterator.new stateAt
      rw [if_pos (by omega : (0 : Nat) ≤ 42)]
      congr 1
      rw [pow_zero, Nat.mul_one, Nat.mod_eq_of_lt hkey]
    rw [hnew, take_stateAt (fromBeBytes key_path) n 0 (by omega),
      List.range_eq_range']
  · simp [pathAt, List.range_succ]

/-- Witness for C7 on the all-zero key path with two values requested. -/
theorem c7_page_ids_iterator_witness :
    PageIdsIterator.take 2 (PageIdsIterator.new (List.replicate 32 0)) =
      (List.range (min 2 43)).map (pathAt (fromBeBytes (List.replicate 32 0))) ∧
    pathAt (fromBeBytes (List.replicate 32 0)) 0 = ROOT_PAGE_ID ∧
    pathAt (fromBeBytes (List.replicate 32 0)) (0 + 1) =
      pathAt (fromBeBytes (List.replicate 32 0)) 0 ++
        [keySextet (fromBeBytes (List.replicate 32 0)) 0] ∧
    (pathAt (fromBeBytes (List.replicate 32 0)) 0).length = 0 :=
  c7_page_ids_iterator (List.replicate 32 0) 2 0 (by decide) (by decide)

theorem LEAF_DATA_BITFIELD_OFF_eq : LEAF_DATA_BITFIELD_OFF = 4032 := by decide

theorem length_readBytes (buf : Buf) (s len : Nat) :
    (readBytes buf s len).length = len := by
  simp [readBytes]

theorem readBytes_writeBytes (buf : Buf) (s : Nat) (bs : List Nat) :
    readBytes (writeBytes buf s bs) s bs.length = bs := by
  apply List.ext_getElem
  · simp [readBytes]
  · intro idx h1 h2
    simp only [readBytes, List.getElem_map, List.getElem_range, writeBytes]
    rw [if_pos (by omega)]
    have hsub : s + idx - s = idx := by omega
    rw [hsub, List.getD_eq_getElem bs 0 h2]

theorem readBytes_writeBytes_disjoint (buf : Buf) (s s2 : Nat)
    (bs : List Nat) (len : Nat) (h : s2 + len ≤ s ∨ s + bs.length ≤ s2) :
    readBytes (writeBytes buf s bs) s2 len = readBytes buf s2 len := by
  unfold readBytes
  apply List.map_congr_left
  intro j hj
  have hjlen : j < len := List.mem_range.mp hj
  unfold writeBytes
  rw [if_neg (by omega)]

theorem readBytes_updateByte_disjoint (buf : Buf) (pos val s2 len : Nat)
    (h : pos < s2 ∨ s2 + len ≤ pos) :
    readBytes (updateByte buf pos val) s2 len = readBytes buf s2 len := by
  unfold readBytes
  apply List.map_congr_left
  intro j hj
  have hjlen : j < len := List.mem_range.mp hj
  unfold updateByte
  rw [if_neg (by omega)]

theorem readBytes_setLeafBit (buf : Buf) (i : Nat) (v : Bool) (s2 len : Nat)
    (h : s2 + len ≤ LEAF_DATA_BITFIELD_OFF) :
    readBytes (setLeafBit buf i v) s2 len = readBytes buf s2 len := by
  unfold setLeafBit
  exact readBytes_updateByte_disjoint _ _ _ _ _ (Or.inr (by omega))

theorem readBytes_emptyBuf (s len : Nat) :
    readBytes emptyBuf s len = List.replicate len 0 := by
  apply List.ext_getElem
  · simp [readBytes]
  · intro idx h1 h2
    simp [readBytes, emptyBuf]

theorem getLeafBit_writeBytes (buf : Buf) (s : Nat) (bs : List Nat) (j : Nat)
    (h : s + bs.length ≤ LEAF_DATA_BITFIELD_OFF) :
    getLeafBit (writeBytes buf s bs) j = getLeafBit buf j := by
  unfold getLeafBit writeBytes
  rw [if_neg (by omega)]

theorem one_shiftLeft_eq (pos : Nat) : (1 <<< pos : Nat) = 2 ^ pos := by
  rw [Nat.shiftLeft_eq, one_mul]

theorem testBit_setBit_self (b pos : Nat) (v : Bool) (h : pos < 8) :
    Nat.testBit (setBit b pos v) pos = v := by
  cases v with
  | true =>
    show Nat.testBit (b ||| (1 <<< pos)) pos = true
    rw [one_shiftLeft_eq, Nat.testBit_lor, Nat.testBit_two_pow_self]
    simp
  | false =>
    show Nat.testBit (b &&& (255 ^^^ (1 <<< pos))) pos = false
    rw [one_shiftLeft_eq, show (255 : Nat) = 2 ^ 8 - 1 by norm_num,
      Nat.testBit_land, Nat.testBit_xor, Nat.testBit_two_pow_sub_one,
      Nat.testBit_two_pow_self]
    simp [h]

theorem testBit_setBit_other (b pos q : Nat) (v : Bool) (hq : q < 8)
    (hne : q ≠ pos) : Nat.testBit (setBit b pos v) q = Nat.testBit b q := by
  cases v with
  | true =>
    show Nat.testBit (b ||| (1 <<< pos)) q = Nat.testBit b q
    rw [one_shiftLeft_eq, Nat.testBit_lor,
      Nat.testBit_two_pow_of_ne (Ne.symm hne)]
    simp
  | false =>
    show Nat.testBit (b &&& (255 ^^^ (1 <<< pos))) q = Nat.testBit b q
    rw [one_shiftLeft_eq, show (255 : Nat) = 2 ^ 8 - 1 by norm_num,
      Nat.testBit_land, Nat.testBit_xor, Nat.testBit_two_pow_sub_one,
      Nat.testBit_two_pow_of_ne (Ne.symm hne)]
    simp [hq]

theorem getLeafBit_setLeafBit_self (buf : Buf) (i : Nat) (v : Bool) :
    getLeafBit (setLeafBit buf i v) i = v := by
  unfold getLeafBit setLeafBit updateByte
  rw [if_pos rfl]
  exact testBit_setBit_self _ _ _ (by omega)

theorem getLeafBit_setLeafBit_other (buf : Buf) (i j : Nat) (v : Bool)
    (hne : j ≠ i) : getLeafBit (setLeafBit buf i v) j = getLeafBit buf j := by
  unfold getLeafBit setLeafBit updateByte
  by_cases hb : LEAF_DATA_BITFIELD_OFF + j / 8 = LEAF_DATA_BITFIELD_OFF + i / 8
  · rw [if_pos hb, hb]
    have hdiv : j / 8 = i / 8 := by omega
    have hmod : 7 - j % 8 ≠ 7 - i % 8 := by omega
    exact testBit_setBit_other _ _ _ _ (by omega) hmod
  · rw [if_neg hb]

/-- C4: after `set_node(i, n)` with `i < 126` and a 32-byte node — the
buffer being lazily allocated when absent — reading node `i` returns `n`
and leaf-metadata bit `i` is zero. -/
theorem c4_set_node_read_back (d : PageData) (i : Nat) (n : List Nat)
    (hi : i < 126) (hn : n.length = 32) :
    PageData.node (PageData.set_node d i n) i = n ∧
    PageData.leafBit (PageData.set_node d i n) i = false := by
  have hoff := LEAF_DATA_BITFIELD_OFF_eq
  constructor
  · show readBytes (setLeafBit (writeBytes (d.getD emptyBuf) (i * 32) n) i
      false) (i * 32) 32 = n
    rw [readBytes_setLeafBit _ _ _ _ _ (by omega)]
    calc readBytes (writeBytes (d.getD emptyBuf) (i * 32) n) (i * 32) 32
        = readBytes (writeBytes (d.getD emptyBuf) (i * 32) n) (i * 32)
            n.length := by rw [hn]
      _ = n := readBytes_writeBytes _ _ _
  · show getLeafBit (setLeafBit (writeBytes (d.getD emptyBuf) (i * 32) n) i
      false) i = false
    exact getLeafBit_setLeafBit_self _ _ _

/-- Witness for C4: writing slot 0 of an absent buffer. -/
theorem c4_set_node_read_back_witness :
    (0 : Nat) < 126 ∧ (List.replicate 32 1).length = 32 ∧
    (PageData.node (PageData.set_node none 0 (List.replicate 32 1)) 0 =
        List.replicate 32 1 ∧
      PageData.leafBit (PageData.set_node none 0 (List.replicate 32 1)) 0 =
        false) :=
  ⟨by decide, by decide,
    c4_set_node_read_back none 0 (List.replicate 32 1) (by decide) (by decide)⟩

/-- C10: `set_node(i, n)` changes neither the node read at any other index
`j < 126` nor leaf-metadata bit `j`, and the lazy allocation keeps
untouched slots reading all-zero. -/
theorem c10_set_node_frame (d : PageData) (i j : Nat) (n : List Nat)
    (hi : i < 126) (hj : j < 126) (hne : j ≠ i) (hn : n.length = 32) :
    PageData.node (PageData.set_node d i n) j = PageData.node d j ∧
    PageData.leafBit (PageData.set_node d i n) j = PageData.leafBit d j := by
  have hoff := LEAF_DATA_BITFIELD_OFF_eq
  constructor
  · show readBytes (setLeafBit (writeBytes (d.getD emptyBuf) (i * 32) n) i
      false) (j * 32) 32 = PageData.node d j
    rw [readBytes_setLeafBit _ _ _ _ _ (by omega),
      readBytes_writeBytes_disjoint _ _ _ _ _ (by omega)]
    cases d with
    | some buf => rfl
    | none =>
      simp only [Option.getD_none]
      rw [readBytes_emptyBuf]
      rfl
  · show getLeafBit (setLeafBit (writeBytes (d.getD emptyBuf) (i * 32) n) i
      false) j = PageData.leafBit d j
    rw [getLeafBit_setLeafBit_other _ _ _ _ hne,
      getLeafBit_writeBytes _ _ _ _ (by omega)]
    cases d with
    | some buf => rfl
    | none =>
      show getLeafBit emptyBuf j = false
      unfold getLeafBit emptyBuf
      simp

/-- Witness for C10: writing slot 0 leaves slot 1 and its bit unchanged. -/
theorem c10_set_node_frame_witness :
    (0 : Nat) < 126 ∧ (1 : Nat) < 126 ∧ (1 : Nat) ≠ 0 ∧
    (List.replicate 32 1).length = 32 ∧
    (PageData.node (PageData.set_node none 0 (List.replicate 32 1)) 1 =
        PageData.node none 1 ∧
      PageData.leafBit (PageData.set_node none 0 (List.replicate 32 1)) 1 =
        PageData.leafBit none 1) :=
  ⟨by decide, by decide, by decide, by decide,
    c10_set_node_frame none 0 1 (List.replicate 32 1) (by decide) (by decide)
      (by decide) (by decide)⟩

theorem leafBit_getD (d : PageData) (i : Nat) :
    getLeafBit (d.getD emptyBuf) i = PageData.leafBit d i := by
  cases d with
  | some buf => rfl
  | none =>
    show getLeafBit emptyBuf i = false
    unfold getLeafBit emptyBuf
    simp

theorem node_getD (d : PageData) (i : Nat) :
    readBytes (d.getD emptyBuf) (i * 32) 32 = PageData.node d i := by
  cases d with
  | some buf => rfl
  | none =>
    simp only [Option.getD_none]
    rw [readBytes_emptyBuf]
    rfl

theorem clear_leaf_data_spec (d : PageData) (k : Nat) (hk : k < 125) :
    PageData.leafBit (PageData.clear_leaf_data d k) k = false ∧
    PageData.leafBit (PageData.clear_leaf_data d k) (k + 1) = false ∧
    PageData.node (PageData.clear_leaf_data d k) k =
      (if PageData.leafBit d k then List.replicate 32 0
       else PageData.node d k) ∧
    PageData.node (PageData.clear_leaf_data d k) (k + 1) =
      (if PageData.leafBit d (k + 1) then List.replicate 32 0
       else PageData.node d (k + 1)) := by
  have hoff := LEAF_DATA_BITFIELD_OFF_eq
  have hrep : (List.replicate 32 (0 : Nat)).length = 32 := by simp
  set base := d.getD emptyBuf with hbase
  set data1 := setLeafBit base k false with hdata1
  set data2 := setLeafBit data1 (k + 1) false with hdata2
  set data3 :=
    if getLeafBit base k then writeBytes data2 (k * 32) (List.replicate 32 0)
    else data2 with hdata3
  set data4 :=
    if getLeafBit data1 (k + 1) then
      writeBytes data3 (k * 32 + 32) (List.replicate 32 0)
    else data3 with hdata4
  have hres : PageData.clear_leaf_data d k = some data4 := rfl
  have hb1 : getLeafBit data1 (k + 1) = getLeafBit base (k + 1) := by
    rw [hdata1, getLeafBit_setLeafBit_other _ _ _ _ (by omega)]
  have hbitk : getLeafBit base k = PageData.leafBit d k := leafBit_getD d k
  have hbitk1 : getLeafBit base (k + 1) = PageData.leafBit d (k + 1) :=
    leafBit_getD d (k + 1)
  have hd2k : getLeafBit data2 k = false := by
    rw [hdata2, getLeafBit_setLeafBit_other _ _ _ _ (by omega), hdata1,
      getLeafBit_setLeafBit_self]
  have hd2k1 : getLeafBit data2 (k + 1) = false := by
    rw [hdata2, getLeafBit_setLeafBit_self]
  have hnk : readBytes data2 (k * 32) 32 = PageData.node d k := by
    rw [hdata2, readBytes_setLeafBit _ _ _ _ _ (by omega), hdata1,
      readBytes_setLeafBit _ _ _ _ _ (by omega), hbase, node_getD]
  have hnk1 : readBytes data2 ((k + 1) * 32) 32 = PageData.node d (k + 1) := by
    rw [hdata2, readBytes_setLeafBit _ _ _ _ _ (by omega), hdata1,
      readBytes_setLeafBit _ _ _ _ _ (by omega), hbase, node_getD]
  have hg3 : ∀ i, getLeafBit data3 i = getLeafBit data2 i := by
    intro i
    rw [hdata3]
    by_cases hl : getLeafBit base k = true
    · rw [if_pos hl, getLeafBit_writeBytes _ _ _ _ (by rw [hrep]; omega)]
    · rw [if_neg hl]
  have hg4 : ∀ i, getLeafBit data4 i = getLeafBit data2 i := by
    intro i
    rw [hdata4]
    by_cases hr : getLeafBit data1 (k + 1) = true
    · rw [if_pos hr, getLeafBit_writeBytes _ _ _ _ (by rw [hrep]; omega), hg3]
    · rw [if_neg hr, hg3]
  have hmain3 : readBytes data3 (k * 32) 32 =
      (if getLeafBit base k then List.replicate 32 0
       else PageData.node d k) := by
    rw [hdata3]
    by_cases hl : getLeafBit base k = true
    · rw [if_pos hl, if_pos hl]
      calc readBytes (writeBytes data2 (k * 32) (List.replicate 32 0))
            (k * 32) 32
          = readBytes (writeBytes data2 (k * 32) (List.replicate 32 0))
              (k * 32) (List.replicate 32 (0 : Nat)).length := by rw [hrep]
        _ = List.replicate 32 0 := readBytes_writeBytes _ _ _
    · rw [if_neg hl, if_neg hl, hnk]
  have hn4k : readBytes data4 (k * 32) 32 =
      (if getLeafBit base k then List.replicate 32 0
       else PageData.node d k) := by
    rw [hdata4]
    by_cases hr : getLeafBit data1 (k + 1) = true
    · rw [if_pos hr,
        readBytes_writeBytes_disjoint _ _ _ _ _ (Or.inl (by omega)), hmain3]
    · rw [if_neg hr, hmain3]
  have hn4k1 : readBytes data4 (k * 32 + 32) 32 =
      (if getLeafBit base (k + 1) then List.replicate 32 0
       else PageData.node d (k + 1)) := by
    rw [hdata4, hb1]
    have hshift : k * 32 + 32 = (k + 1) * 32 := by ring
    by_cases hr : getLeafBit base (k + 1) = true
    · rw [if_pos hr, if_pos hr]
      calc readBytes (writeBytes data3 (k * 32 + 32) (List.replicate 32 0))
            (k * 32 + 32) 32
          = readBytes (writeBytes data3 (k * 32 + 32) (List.replicate 32 0))
              (k * 32 + 32) (List.replicate 32 (0 : Nat)).length := by
            rw [hrep]
        _ = List.replicate 32 0 := readBytes_writeBytes _ _ _
    · rw [if_neg hr, if_neg hr, hdata3]
      by_cases hl : getLeafBit base k = true
      · rw [if_pos hl, readBytes_writeBytes_disjoint _ _ _ _ _
          (Or.inr (by rw [hrep])), hshift, hnk1]
      · rw [if_neg hl, hshift, hnk1]
  rw [hres]
  refine ⟨?_, ?_, ?_, ?_⟩
  · show getLeafBit data4 k = false
    rw [hg4, hd2k]
  · show getLeafBit data4 (k + 1) = false
    rw [hg4, hd2k1]
  · show readBytes data4 (k * 32) 32 = _
    rw [hn4k, hbitk]
  · show readBytes data4 ((k + 1) * 32) 32 = _
    have heq : (k + 1) * 32 = k * 32 + 32 := by ring
    rw [heq, hn4k1, hbitk1]

theorem set_leaf_data_bits (d : PageData) (k : Nat) (ld : LeafData)
    (hk : k < 125) (hkey : ld.keyHash.length = 32)
    (hval : ld.valueHash.length = 32) :
    PageData.leafBit (PageData.set_leaf_data d k ld) k = true ∧
    PageData.leafBit (PageData.set_leaf_data d k ld) (k + 1) = true := by
  have hoff := LEAF_DATA_BITFIELD_OFF_eq
  have hlen : ld.encode.length = 64 := by
    simp [LeafData.encode, hkey, hval]
  constructor
  · show getLeafBit (writeBytes (setLeafBit (setLeafBit (d.getD emptyBuf) k
      true) (k + 1) true) (k * 32) ld.encode) k = true
    rw [getLeafBit_writeBytes _ _ _ _ (by omega),
      getLeafBit_setLeafBit_other _ _ _ _ (by omega),
      getLeafBit_setLeafBit_self]
  · show getLeafBit (writeBytes (setLeafBit (setLeafBit (d.getD emptyBuf) k
      true) (k + 1) true) (k * 32) ld.encode) (k + 1) = true
    rw [getLeafBit_writeBytes _ _ _ _ (by omega),
      getLeafBit_setLeafBit_self]

/-- C5: `clear_leaf_data(k)` zeroes leaf bits `k` and `k + 1`; a slot whose
bit was one is zeroed while a slot whose bit was already zero keeps its
prior 32 bytes; in particular after `set_leaf_data(k, ld)` followed by
`clear_leaf_data(k)` both bits are zero and both slots read all zero. -/
theorem c5_clear_leaf_data (d : PageData) (k : Nat) (ld : LeafData)
    (hk : k < 125) (hkey : ld.keyHash.length = 32)
    (hval : ld.valueHash.length = 32) :
    PageData.leafBit (PageData.clear_leaf_data d k) k = false ∧
    PageData.leafBit (PageData.clear_leaf_data d k) (k + 1) = false ∧
    PageData.node (PageData.clear_leaf_data d k) k =
      (if PageData.leafBit d k then List.replicate 32 0
       else PageData.node d k) ∧
    PageData.node (PageData.clear_leaf_data d k) (k + 1) =
      (if PageData.leafBit d (k + 1) then List.replicate 32 0
       else PageData.node d (k + 1)) ∧
    PageData.leafBit
      (PageData.clear_leaf_data (PageData.set_leaf_data d k ld) k) k =
      false ∧
    PageData.leafBit
      (PageData.clear_leaf_data (PageData.set_leaf_data d k ld) k) (k + 1) =
      false ∧
    PageData.node
      (PageData.clear_leaf_data (PageData.set_leaf_data d k ld) k) k =
      List.replicate 32 0 ∧
    PageData.node
      (PageData.clear_leaf_data (PageData.set_leaf_data d k ld) k) (k + 1) =
      List.replicate 32 0 := by
  obtain ⟨h1, h2, h3, h4⟩ := clear_leaf_data_spec d k hk
  obtain ⟨hb1, hb2⟩ := set_leaf_data_bits d k ld hk hkey hval
  obtain ⟨g1, g2, g3, g4⟩ :=
    clear_leaf_data_spec (PageData.set_leaf_data d k ld) k hk
  rw [hb1] at g3
  rw [hb2] at g4
  exact ⟨h1, h2, h3, h4, g1, g2, by rw [g3]; simp, by rw [g4]; simp⟩

/-- Witness for C5: set then clear of the slot pair (0, 1) on an absent
buffer. -/
theorem c5_clear_leaf_data_witness :
    (0 : Nat) < 125 ∧
    (List.replicate 32 2).length = 32 ∧
    (List.replicate 32 3).length = 32 ∧
    PageData.leafBit
      (PageData.clear_leaf_data
        (PageData.set_leaf_data none 0
          ⟨List.replicate 32 2, List.replicate 32 3⟩) 0) 0 = false ∧
    PageData.node
      (PageData.clear_leaf_data
        (PageData.set_leaf_data none 0
          ⟨List.replicate 32 2, List.replicate 32 3⟩) 0) 0 =
      List.replicate 32 0 :=
  ⟨by decide, by decide, by decide,
    (c5_clear_leaf_data none 0 ⟨List.replicate 32 2, List.replicate 32 3⟩
      (by decide) (by decide) (by decide)).2.2.2.2.1,
    (c5_clear_leaf_data none 0 ⟨List.replicate 32 2, List.replicate 32 3⟩
      (by decide) (by decide) (by decide)).2.2.2.2.2.2.1⟩

/-- C6: the first `complete_and_notify(p)` moves the cell from Pending to
Completed with `p`; any number of later `complete_and_notify` calls are
no-ops leaving `p` stored; and `wait` after completion returns `p`, so all
waiters receive the same page. -/
theorem c6_inflight_protocol (α : Type) (p q : α) (rest : List α) :
    InflightFetch.complete_and_notify (none : Option α) p = some p ∧
    InflightFetch.complete_and_notify
      (InflightFetch.complete_and_notify (none : Option α) p) q =
      InflightFetch.complete_and_notify (none : Option α) p ∧
    rest.foldl (fun st r => InflightFetch.complete_and_notify st r)
      (InflightFetch.complete_and_notify (none : Option α) p) = some p ∧
    InflightFetch.wait
      (InflightFetch.complete_and_notify (none : Option α) p) = some p := by
  have hfold : ∀ l : List α,
      l.foldl (fun st r => InflightFetch.complete_and_notify st r)
        (some p) = some p := by
    intro l
    induction l with
    | nil => rfl
    | cons x t ih => simpa [InflightFetch.complete_and_notify] using ih
  exact ⟨rfl, rfl, hfold rest, rfl⟩

theorem taggedNodes_aux_length (page : Buf) :
    ∀ l : List Nat,
      (l.foldr (fun s acc => s :: (readBytes page (s * 32) 32 ++ acc))
        []).length = 33 * l.length := by
  intro l
  induction l with
  | nil => rfl
  | cons s t ih =>
    simp only [List.foldr_cons, List.length_cons, List.length_append,
      length_readBytes, ih]
    ring

theorem taggedNodes_length (page : Buf) (diff : Nat) :
    (taggedNodes page diff).length = 33 * countOnes diff :=
  taggedNodes_aux_length page (iterOnes diff)

theorem commit_mem (cache : PageId → Option PageState) :
    ∀ (diffs : List (PageId × Nat)) (ops : List TxOp) (pid : PageId)
      (diff : Nat), commit cache diffs = some ops → (pid, diff) ∈ diffs →
      ∃ l, commitOne cache pid diff = some l ∧ ∀ op ∈ l, op ∈ ops := by
  intro diffs
  induction diffs with
  | nil =>
    intro ops pid diff _ hm
    simp at hm
  | cons hd tl ih =>
    intro ops pid diff hc hm
    obtain ⟨p0, d0⟩ := hd
    rw [commit] at hc
    cases h1 : commitOne cache p0 d0 with
    | none => rw [h1] at hc; simp at hc
    | some l1 =>
      rw [h1] at hc
      cases h2 : commit cache tl with
      | none => rw [h2] at hc; simp at hc
      | some l2 =>
        rw [h2] at hc
        simp only [Option.some.injEq] at hc
        subst hc
        rcases List.mem_cons.mp hm with heq | hm2
        · cases heq
          exact ⟨l1, h1, fun op hop => List.mem_append_left _ hop⟩
        · obtain ⟨l, hl, hsub⟩ := ih l2 pid diff h2 hm2
          exact ⟨l, hl, fun op hop => List.mem_append_right _ (hsub op hop)⟩

/-- C3: for each pair handed to `commit` whose id is cached: an absent or
empty page buffer makes the transaction receive `delete_page`; a non-empty
buffer with at least `FULL_PAGE_THRESHOLD = 32` changed slots receives the
full 4096-byte `write_page`; below the threshold it receives the packed
delta of exactly `popcount(diff)` records, one slot-index byte plus 32 slot
bytes each — for changed slots 3 and 7 the 66-byte delta
`03 ∥ slot3 ∥ 07 ∥ slot7`. -/
theorem c3_commit_per_entry (cache : PageId → Option PageState)
    (diffs : List (PageId × Nat)) (ops : List TxOp) (pid : PageId)
    (diff : Nat) (d : PageData) (hc : commit cache diffs = some ops)
    (hm : (pid, diff) ∈ diffs)
    (hcache : cache pid = some (PageState.Cached d)) :
    ((d.map page_is_empty).getD true = true →
      TxOp.delete_page pid ∈ ops) ∧
    (∀ page, d = some page → page_is_empty page = false →
      (32 ≤ countOnes diff →
        TxOp.write_page pid (readBytes page 0 4096) ∈ ops) ∧
      (countOnes diff < 32 →
        TxOp.write_page_nodes pid (taggedNodes page diff) ∈ ops ∧
        (taggedNodes page diff).length = 33 * countOnes diff)) ∧
    (∀ page : Buf, taggedNodes page (2 ^ 3 + 2 ^ 7) =
      3 :: (readBytes page 96 32 ++ 7 :: (readBytes page 224 32 ++ [])) ∧
      (taggedNodes page (2 ^ 3 + 2 ^ 7)).length = 66) := by
  obtain ⟨l, hone, hsub⟩ := commit_mem cache diffs ops pid diff hc hm
  refine ⟨?_, ?_, ?_⟩
  · intro hemp
    have hcompute : commitOne cache pid diff = some [TxOp.delete_page pid] := by
      simp only [commitOne, hcache]
      rw [if_pos hemp]
    rw [hcompute] at hone
    simp only [Option.some.injEq] at hone
    subst hone
    exact hsub _ (by simp)
  · intro page hpage hne
    subst hpage
    have hcompute2 : commitOne cache pid diff =
        (if page_is_empty page then some [TxOp.delete_page pid]
         else if 32 ≤ countOnes diff then
           some [TxOp.write_page pid (readBytes page 0 4096)]
         else some [TxOp.write_page_nodes pid (taggedNodes page diff)]) := by
      simp only [commitOne, hcache]
      exact rfl
    rw [hcompute2, if_neg (by simp [hne])] at hone
    constructor
    · intro hge
      rw [if_pos hge] at hone
      simp only [Option.some.injEq] at hone
      subst hone
      exact hsub _ (by simp)
    · intro hlt
      rw [if_neg (by omega)] at hone
      simp only [Option.some.injEq] at hone
      subst hone
      exact ⟨hsub _ (by simp), taggedNodes_length page diff⟩
  · intro page
    have hio : iterOnes (2 ^ 3 + 2 ^ 7) = [3, 7] := by decide
    constructor
    · rw [taggedNodes, hio]
      simp only [List.foldr_cons, List.foldr_nil]
    · rw [taggedNodes_length, show countOnes (2 ^ 3 + 2 ^ 7) = 2 by decide]

/-- Witness for C3: committing a single empty cached page emits exactly its
deletion, and the theorem places that instruction among the emitted ops. -/
theorem c3_commit_per_entry_witness :
    commit cacheSingle [([], 136)] = some [TxOp.delete_page []] ∧
    TxOp.delete_page ([] : PageId) ∈ [TxOp.delete_page ([] : PageId)] :=
  ⟨by decide,
    (c3_commit_per_entry cacheSingle [([], 136)] [TxOp.delete_page []] []
      136 (some emptyBuf) (by decide) (by simp) rfl).1 (by decide)⟩

end Nomt
